import Mathlib

/-!
Shallow embedding of the audiobook_maker repository's splitting logic.

The embedded code:
* `src/word_count_analyzer_enhanced.py`
  - `count_words_in_file`: counts the non-whitespace characters of a file's
    content, returning 0 when reading raises (`countChars`, `countWordsRead`);
  - `split_text_file`: the part-count rule (`computeParts`), the split-point
    scan (`splitScan`, `splitPositions`), the part-extraction loop
    (`writeParts`, `splitFile`) and, with an explicit write-success oracle,
    the effect order write-parts-then-delete-original (`runLoop`, `runSplit`);
  - `analyze_folder`: the over-4000 classification (`fileData`, `analyzeLong`,
    `statusOf`);
  - `split_selected_files`: the per-file success/error counting of a batch
    (`batchStep`, `batchCounts`).
* `src/novel_splitter.py`
  - `split_novel_by_chapters`: the chapter-header match and the line scan that
    groups lines into chapters (`matchChapterHeader`, `chapterScan`).

Machine integers are `Nat`/`Int`; Python's floor division `//` is `Int.fdiv`.
A Python document is its list of lines (`content.split('\n')`).
-/

namespace AudiobookMaker

/-- A single character survives Python's `char.strip()` iff it is not
whitespace: `len([char for char in line if char.strip()])` keeps exactly the
non-whitespace characters. -/
def keepChar (c : Char) : Bool := !c.isWhitespace

/-- Embedding of `len([char for char in content if char.strip()])` of
`count_words_in_file` / the per-line count of `split_text_file`. -/
def countChars (s : String) : Nat := (s.toList.filter keepChar).length

/-- Outcome of `count_words_in_file`: the count of the file's content, or 0 when the
read raised (`except Exception: return 0`). The read outcome is the
`Option String` argument. -/
def countWordsRead (readResult : Option String) : Nat :=
  match readResult with
  | some content => countChars content
  | none => 0

/-- The part-count rule of `split_text_file` (lines 51-58):
`if 4000 < word_count < 8000: parts = 2`,
`elif 8000 <= word_count < 12000: parts = 3`,
`else: parts = (word_count - 1) // 4000 + 1` with Python's floor division. -/
def computeParts (wordCount : Nat) : Nat :=
  if 4000 < wordCount ∧ wordCount < 8000 then 2
  else if 8000 ≤ wordCount ∧ wordCount < 12000 then 3
  else ((((wordCount : Int) - 1).fdiv 4000) + 1).toNat

/-- The split-point scan of `split_text_file` (lines 62-72) over the list of
per-line character counts: after adding a line's count, append the index
right after the line when the running total has reached
`len(split_positions) * 4000` and fewer than `parts` positions are recorded. -/
def splitScan (parts : Nat) : List Nat → Nat → Nat → List Nat → List Nat
  | [], _, _, acc => acc
  | c :: rest, i, cur, acc =>
    let cur' := cur + c
    let acc' :=
      if acc.length * 4000 ≤ cur' ∧ acc.length < parts then acc ++ [i + 1]
      else acc
    splitScan parts rest (i + 1) cur' acc'

/-- The list `split_positions` as `split_text_file` leaves it (lines 62-76): the scan
starting from `[0]`, then `split_positions.append(len(lines))` when fewer
than `parts + 1` positions were recorded. -/
def splitPositions (lines : List String) (parts : Nat) : List Nat :=
  let sp := splitScan parts (lines.map countChars) 0 0 [0]
  if sp.length < parts + 1 then sp ++ [lines.length] else sp

/-- Python's `lines[s:e]` for `0 ≤ s, e`. -/
def sliceList (l : List α) (s e : Nat) : List α := (l.take e).drop s

/-- The part-extraction loop of `split_text_file` (lines 84-96), indices only:
part `i` is `lines[split_positions[i] : end]` where `end` is
`split_positions[i+1]` when that index exists and `len(lines)` otherwise;
reading a missing `split_positions[i]` raises (`none`), which the function's
`except` turns into the failure return. -/
def writeParts (lines : List String) (sp : List Nat) : Nat → Nat → Option (List (List String))
  | 0, _ => some []
  | r + 1, i =>
    match sp.get? i with
    | none => none
    | some s =>
      let e :=
        match sp.get? (i + 1) with
        | some b => b
        | none => lines.length
      match writeParts lines sp r (i + 1) with
      | none => none
      | some rest => some (sliceList lines s e :: rest)

/-- Run of `split_text_file` up to the part contents: `some parts` when every part is
produced, `none` when the loop raised. -/
def splitFile (lines : List String) (wordCount : Nat) : Option (List (List String)) :=
  writeParts lines (splitPositions lines (computeParts wordCount)) (computeParts wordCount) 0

/-- The loop `writeParts` re-expressed on the remaining suffix of the positions list:
the same loop, with `sp.get? i` as the suffix's head. -/
def wpList (lines : List String) : List Nat → Nat → Option (List (List String))
  | _, 0 => some []
  | [], _ + 1 => none
  | a :: rest, r + 1 =>
    let e :=
      match rest.head? with
      | some b => b
      | none => lines.length
    match wpList lines rest r with
    | none => none
    | some ps => some (sliceList lines a e :: ps)

/-- The consecutive slices `lines[a:b]` along a list of positions. -/
def slicesAlong (lines : List String) : List Nat → List (List String)
  | [] => []
  | [_] => []
  | a :: b :: rest => sliceList lines a b :: slicesAlong lines (b :: rest)

/-- The observable outcome of one `split_text_file` run: the part files on
disk, whether the original was deleted, and the returned list
(`created_files` on success, `[]` on an exception). -/
structure SplitRun where
  written : List (List String)
  deleted : Bool
  ret : List (List String)
deriving DecidableEq, Repr

/-- The write loop of `split_text_file` (lines 84-100) with a write-success
oracle `writeOk`: a missing index or a failed write raises, so the loop stops
with the original file kept and `[]` returned; after all `parts` writes
succeed, `file_path.unlink()` deletes the original and `created_files` is
returned. -/
def runLoop (lines : List String) (sp : List Nat) (writeOk : Nat → Bool) :
    Nat → Nat → List (List String) → SplitRun
  | 0, _, acc => ⟨acc, true, acc⟩
  | r + 1, i, acc =>
    match sp.get? i with
    | none => ⟨acc, false, []⟩
    | some s =>
      let e :=
        match sp.get? (i + 1) with
        | some b => b
        | none => lines.length
      if writeOk i then runLoop lines sp writeOk r (i + 1) (acc ++ [sliceList lines s e])
      else ⟨acc, false, []⟩

/-- A whole `split_text_file` run under the write-success oracle. -/
def runSplit (lines : List String) (wordCount : Nat) (writeOk : Nat → Bool) : SplitRun :=
  runLoop lines (splitPositions lines (computeParts wordCount)) writeOk (computeParts wordCount) 0 []

/-- The per-file records `analyze_folder` builds (lines 302-308): each file's
name with its count, a failed read counted as 0. -/
def fileData (files : List (String × Option String)) : List (String × Nat) :=
  files.map fun f => (f.1, countWordsRead f.2)

/-- The list `long_files` of `analyze_folder` (lines 310-312): the records whose count
is over 4000; only these are offered to the splitter. -/
def analyzeLong (files : List (String × Option String)) : List (String × Nat) :=
  (fileData files).filter fun f => 4000 < f.2

/-- The CSV status column of `analyze_folder` (line 330). -/
def statusOf (wordCount : Nat) : String :=
  if 4000 < wordCount then "⚠️ Too Long" else "✅ Safe"

/-- One selected file of `split_selected_files`: its document, the count it
was recorded with, and the write-success oracle of its run. -/
def BatchJob : Type := (List String × Nat) × (Nat → Bool)

/-- One iteration of `split_selected_files` (lines 235-244): an empty
`created_files` counts as a failure, a non-empty one as a success. -/
def batchStep (acc : Nat × Nat) (job : BatchJob) : Nat × Nat :=
  if ((runSplit job.1.1 job.1.2 job.2).ret).isEmpty then (acc.1, acc.2 + 1)
  else (acc.1 + 1, acc.2)

/-- The `(success_count, error_count)` totals of a `split_selected_files`
batch. -/
def batchCounts (jobs : List BatchJob) : Nat × Nat :=
  jobs.foldl batchStep (0, 0)

/-- Python's `str.strip()`: leading and trailing whitespace removed. -/
def pyStrip (s : String) : String :=
  String.mk (((s.toList.dropWhile Char.isWhitespace).reverse.dropWhile
    Char.isWhitespace).reverse)

/-- Embedding of `re.match(r'^第(\d+)章\s+(.+)$', line)` of `split_novel_by_chapters`
applied to an already stripped line: `第`, one or more digits, `章`, at least
one whitespace, then a non-empty remainder; the groups are the digit run and
the stripped remainder. -/
def matchChapterHeader (s : String) : Option (String × String) :=
  match s.toList with
  | [] => none
  | c :: rest =>
    if c = '第' then
      let digits := rest.takeWhile Char.isDigit
      match rest.dropWhile Char.isDigit with
      | [] => none
      | d :: tail =>
        if digits = [] then none
        else if d = '章' then
          let body := tail.dropWhile Char.isWhitespace
          if (tail.takeWhile Char.isWhitespace) = [] then none
          else if body = [] then none
          else some (String.mk digits, pyStrip (String.mk body))
        else none
    else none

/-- The line scan of `split_novel_by_chapters` (lines 42-77): each line is
stripped; a header line closes the current chapter (when one is open) and
opens a new one whose content starts with the header line; any other line is
appended to the open chapter's content and dropped when no chapter is open;
the last open chapter is closed at the end. -/
def chapterScan : List String → Option (String × String × List String) →
    List (String × String × List String)
  | [], none => []
  | [], some cur => [cur]
  | l :: ls, cur =>
    let s := pyStrip l
    match matchChapterHeader s with
    | some (num, title) =>
      (match cur with
       | some c => [c]
       | none => []) ++ chapterScan ls (some (num, title, [s]))
    | none =>
      match cur with
      | none => chapterScan ls none
      | some c => chapterScan ls (some (c.1, c.2.1, c.2.2 ++ [s]))

/-- The chapter list `split_novel_by_chapters` writes out. -/
def splitNovelChapters (lines : List String) : List (String × String × List String) :=
  chapterScan lines none

/-- A one-line document of 8000 non-whitespace characters: its own part plan
is 3 parts, yet its scan can record only one interior split point. -/
def bigLineDoc : List String := [String.mk (List.replicate 8000 'a')]

/-- A 10-line document whose first three lines hold 1400, 1400 and 1300
non-whitespace characters (4100 over the first three lines). -/
def docTen : List String :=
  String.mk (List.replicate 1400 'a') :: String.mk (List.replicate 1400 'a') ::
    String.mk (List.replicate 1300 'a') ::
    List.replicate 7 (String.mk (List.replicate 10 'a'))

/-- Three lines of 3000 non-whitespace characters each: a 9000-character
document split into three parts. -/
def threeKDoc : List String :=
  [String.mk (List.replicate 3000 'a'), String.mk (List.replicate 3000 'a'),
    String.mk (List.replicate 3000 'a')]

/-! ## Helper lemmas -/

/-- Counting a run of `k` letters `'a'` gives `k`. -/
theorem countChars_replicate (k : Nat) :
    countChars (String.mk (List.replicate k 'a')) = k := by
  induction k with
  | zero => rfl
  | succ n ih =>
    simp only [countChars, String.mk] at ih ⊢
    simp [List.replicate_succ, List.filter_cons, keepChar, ih]

/-- The value of `computeParts` on a positive count, else branch written with `Nat`
division. -/
theorem computeParts_succ (n : Nat) :
    computeParts (n + 1) =
      if 4000 < n + 1 ∧ n + 1 < 8000 then 2
      else if 8000 ≤ n + 1 ∧ n + 1 < 12000 then 3
      else n / 4000 + 1 := by
  unfold computeParts
  split
  · rfl
  · split
    · rfl
    · have h1 : ((n + 1 : Nat) : Int) - 1 = ((n : Nat) : Int) := by push_cast; ring
      have h4 : ((4000 : Nat) : Int) = (4000 : Int) := by norm_num
      rw [h1, ← h4, ← Int.ofNat_fdiv]
      have h2 : ((n / 4000 : Nat) : Int) + 1 = ((n / 4000 + 1 : Nat) : Int) := by push_cast; ring
      rw [h2, Int.toNat_natCast]

/-! ## Claim C4: the part-count rule -/

/-- C4: the part-plan computation maps a character count to a part count as
follows: counts strictly between 4000 and 8000 give 2 parts, counts in
[8000, 12000) give 3 parts, and otherwise the part count is
((characterCount - 1) floor-divided by 4000) + 1; in particular 5000 gives 2,
9000 gives 3 and 16001 gives 5 parts. -/
theorem computeParts_rule :
    (∀ c : Nat, 4000 < c → c < 8000 → computeParts c = 2)
    ∧ (∀ c : Nat, 8000 ≤ c → c < 12000 → computeParts c = 3)
    ∧ (∀ c : Nat, ¬(4000 < c ∧ c < 8000) → ¬(8000 ≤ c ∧ c < 12000) →
        (computeParts c : Int) = ((c : Int) - 1).fdiv 4000 + 1)
    ∧ computeParts 5000 = 2 ∧ computeParts 9000 = 3 ∧ computeParts 16001 = 5 := by
  refine ⟨fun c h1 h2 => ?_, fun c h1 h2 => ?_, fun c h1 h2 => ?_, by decide, by decide, by decide⟩
  · simp [computeParts, h1, h2]
  · have h3 : ¬(4000 < c ∧ c < 8000) := by omega
    simp [computeParts, h3, h1, h2]
  · unfold computeParts
    rw [if_neg h1, if_neg h2]
    match c with
    | 0 => decide
    | n + 1 =>
      have h1' : ((n + 1 : Nat) : Int) - 1 = ((n : Nat) : Int) := by push_cast; ring
      have h4 : ((4000 : Nat) : Int) = (4000 : Int) := by norm_num
      rw [h1', ← h4, ← Int.ofNat_fdiv]
      have h2' : ((n / 4000 : Nat) : Int) + 1 = ((n / 4000 + 1 : Nat) : Int) := by push_cast; ring
      rw [h2', Int.toNat_natCast]

/-! ## Claim C5: positivity of the part count -/

/-- C5 counterexample: at character count 0 the code computes
`(0 - 1) // 4000 + 1 = 0` parts (Python floor division), so the part count is
not at least 1 for every characterCount. -/
theorem computeParts_zero_not_pos : ¬(1 ≤ computeParts 0) := by decide

/-- C5 (amended): for every character count of at least 1, the part count is
at least 1. -/
theorem computeParts_pos (c : Nat) (h : 1 ≤ c) : 1 ≤ computeParts c := by
  match c, h with
  | n + 1, _ =>
    rw [computeParts_succ]
    split
    · omega
    · split <;> omega

/-- C5 witness: the amended theorem at the concrete count 4000. -/
theorem computeParts_pos_witness : 1 ≤ computeParts 4000 :=
  computeParts_pos 4000 (by decide)

/-! ## Claim C7: the over-4000 classification -/

/-- C7: `analyze_folder` marks a file long (and offers it to the splitter)
exactly when its count is strictly over 4000; the status flag is "Too Long"
exactly for such counts, a count of exactly 4000 is "Safe", and a file
recorded with count 4000 is never in the splitter's candidate list. -/
theorem analyzeLong_rule :
    (∀ (files : List (String × Option String)) (f : String × Nat),
        f ∈ analyzeLong files ↔ f ∈ fileData files ∧ 4000 < f.2)
    ∧ (∀ w : Nat, statusOf w = "⚠️ Too Long" ↔ 4000 < w)
    ∧ statusOf 4000 = "✅ Safe"
    ∧ (∀ (files : List (String × Option String)) (name : String),
        (name, 4000) ∉ analyzeLong files) := by
  refine ⟨fun files f => ?_, fun w => ?_, by decide, fun files name => ?_⟩
  · simp [analyzeLong, List.mem_filter]
  · unfold statusOf
    split
    · simpa
    · constructor
      · intro h
        exact absurd h (by decide)
      · intro h
        omega
  · simp [analyzeLong, List.mem_filter]

/-! ## Claim C10: a failed read is recorded as 0 and classified safe -/

/-- C10: a file whose read raises is counted as 0 by `count_words_in_file`,
so `analyze_folder` records it with word count 0, leaves it out of the long
(splitting-eligible) list entirely, and its status flag is "Safe" rather
than any failure marker. -/
theorem failedRead_recorded_safe :
    countWordsRead none = 0
    ∧ (∀ (pre post : List (String × Option String)) (name : String),
        fileData (pre ++ (name, none) :: post) = fileData pre ++ (name, 0) :: fileData post)
    ∧ (∀ (pre post : List (String × Option String)) (name : String),
        analyzeLong (pre ++ (name, none) :: post) = analyzeLong pre ++ analyzeLong post)
    ∧ statusOf (countWordsRead none) = "✅ Safe" := by
  refine ⟨rfl, fun pre post name => ?_, fun pre post name => ?_, by decide⟩
  · simp [fileData, countWordsRead]
  · simp [analyzeLong, fileData, countWordsRead, List.filter_append]

/-! ## Claim C9: the chapter splitter drops everything before the first
header -/

/-- C9: every line of the input occurring before the first chapter-header
line contributes to no chapter: the chapter list of the whole document equals
the chapter list of the suffix starting at the first header. -/
theorem chapters_drop_before_first_header (pre rest : List String)
    (h : ∀ l ∈ pre, matchChapterHeader (pyStrip l) = none) :
    splitNovelChapters (pre ++ rest) = splitNovelChapters rest := by
  induction pre with
  | nil => rfl
  | cons l ls ih =>
    have hl : matchChapterHeader (pyStrip l) = none := h l (by simp)
    have hrest : ∀ x ∈ ls, matchChapterHeader (pyStrip x) = none :=
      fun x hx => h x (by simp [hx])
    unfold splitNovelChapters at ih ⊢
    rw [List.cons_append]
    rw [show chapterScan (l :: (ls ++ rest)) none = chapterScan (ls ++ rest) none by
      simp only [chapterScan, hl]]
    exact ih hrest

/-- C9 witness: a non-header line before the first chapter header changes the
produced chapters not at all. -/
theorem chapters_drop_witness :
    splitNovelChapters ["intro", "第1章 A", "x"] = splitNovelChapters ["第1章 A", "x"] :=
  chapters_drop_before_first_header ["intro"] ["第1章 A", "x"] (by decide)

/-! ## Invariants of the split-point scan -/

/-- The scan only appends to the accumulator. -/
theorem splitScan_extends (parts : Nat) (cs : List Nat) :
    ∀ (i cur : Nat) (acc : List Nat), ∃ t, splitScan parts cs i cur acc = acc ++ t := by
  induction cs with
  | nil =>
    intro i cur acc
    exact ⟨[], by simp [splitScan]⟩
  | cons c rest ih =>
    intro i cur acc
    simp only [splitScan]
    split
    · obtain ⟨t, ht⟩ := ih (i + 1) (cur + c) (acc ++ [i + 1])
      exact ⟨[i + 1] ++ t, by rw [ht]; simp⟩
    · exact ih (i + 1) (cur + c) acc

/-- The scan never grows the accumulator past `parts` entries. -/
theorem splitScan_length_le (parts : Nat) (cs : List Nat) :
    ∀ (i cur : Nat) (acc : List Nat),
      (splitScan parts cs i cur acc).length ≤ max acc.length parts := by
  induction cs with
  | nil =>
    intro i cur acc
    simp [splitScan]
  | cons c rest ih =>
    intro i cur acc
    simp only [splitScan]
    split
    · next hcond =>
      have h1 : (acc ++ [i + 1]).length ≤ parts := by
        simp only [List.length_append, List.length_singleton]
        omega
      have h2 := ih (i + 1) (cur + c) (acc ++ [i + 1])
      have h3 : max (acc ++ [i + 1]).length parts = parts := Nat.max_eq_right h1
      rw [h3] at h2
      exact h2.trans (Nat.le_max_right _ _)
    · exact ih (i + 1) (cur + c) acc

/-- Starting from a sorted accumulator below the current index, the scan's
result is sorted and each entry is at most the index past the last scanned
line. -/
theorem splitScan_sorted_le (parts : Nat) (cs : List Nat) :
    ∀ (i cur : Nat) (acc : List Nat), (∀ x ∈ acc, x ≤ i) → List.Sorted (· ≤ ·) acc →
      List.Sorted (· ≤ ·) (splitScan parts cs i cur acc)
      ∧ ∀ x ∈ splitScan parts cs i cur acc, x ≤ i + cs.length := by
  induction cs with
  | nil =>
    intro i cur acc hle hs
    refine ⟨by simpa [splitScan] using hs, fun x hx => ?_⟩
    simp only [splitScan] at hx
    simpa using hle x hx
  | cons c rest ih =>
    intro i cur acc hle hs
    simp only [splitScan]
    split
    · have hle' : ∀ x ∈ acc ++ [i + 1], x ≤ i + 1 := by
        intro x hx
        rcases List.mem_append.1 hx with h | h
        · exact (hle x h).trans (Nat.le_succ i)
        · simp only [List.mem_singleton] at h
          omega
      have hs' : List.Sorted (· ≤ ·) (acc ++ [i + 1]) := by
        rw [List.Sorted, List.pairwise_append]
        refine ⟨hs, List.sorted_singleton _, fun a ha b hb => ?_⟩
        simp only [List.mem_singleton] at hb
        subst hb
        exact (hle a ha).trans (Nat.le_succ i)
      obtain ⟨h1, h2⟩ := ih (i + 1) (cur + c) (acc ++ [i + 1]) hle' hs'
      refine ⟨h1, fun x hx => ?_⟩
      have := h2 x hx
      simp only [List.length_cons]
      omega
    · obtain ⟨h1, h2⟩ := ih (i + 1) (cur + c) acc
        (fun x hx => (hle x hx).trans (Nat.le_succ i)) hs
      refine ⟨h1, fun x hx => ?_⟩
      have := h2 x hx
      simp only [List.length_cons]
      omega

/-- For a positive part count, `split_text_file` always runs the final
`split_positions.append(len(lines))`: the scan records at most `parts`
positions, fewer than `parts + 1`. -/
theorem splitPositions_eq_append (lines : List String) (parts : Nat) (h : 1 ≤ parts) :
    splitPositions lines parts
      = splitScan parts (lines.map countChars) 0 0 [0] ++ [lines.length] := by
  unfold splitPositions
  have hlen := splitScan_length_le parts (lines.map countChars) 0 0 [0]
  simp only [List.length_singleton] at hlen
  have hmax : max 1 parts = parts := Nat.max_eq_right h
  rw [hmax] at hlen
  rw [if_pos (by omega)]

/-! ## Claim C1: shape of the split-point list -/

/-- C1 (amended): for every document and every part count `n ≥ 1`, the
split-point computation returns between 2 and `n + 1` non-decreasing line
indices whose first entry is 0 and whose last entry is the document's line
count; it returns exactly `n + 1` of them only when the scan could record
every interior point. -/
theorem splitPositions_shape (lines : List String) (n : Nat) (h : 1 ≤ n) :
    2 ≤ (splitPositions lines n).length
    ∧ (splitPositions lines n).length ≤ n + 1
    ∧ (splitPositions lines n).head? = some 0
    ∧ (splitPositions lines n).getLast? = some lines.length
    ∧ List.Sorted (· ≤ ·) (splitPositions lines n) := by
  have heq := splitPositions_eq_append lines n h
  obtain ⟨t, ht⟩ := splitScan_extends n (lines.map countChars) 0 0 [0]
  have hlen := splitScan_length_le n (lines.map countChars) 0 0 [0]
  simp only [List.length_singleton] at hlen
  rw [Nat.max_eq_right h] at hlen
  obtain ⟨hsort, hbound⟩ := splitScan_sorted_le n (lines.map countChars) 0 0 [0]
    (by simp) (List.sorted_singleton 0)
  have hbound' : ∀ x ∈ splitScan n (lines.map countChars) 0 0 [0], x ≤ lines.length := by
    intro x hx
    have := hbound x hx
    simpa using this
  refine ⟨?_, ?_, ?_, ?_, ?_⟩
  · rw [heq, ht]
    simp
  · rw [heq]
    simp only [List.length_append, List.length_singleton]
    omega
  · rw [heq, ht]
    simp
  · rw [heq]
    exact List.getLast?_concat _
  · rw [heq, List.Sorted, List.pairwise_append]
    refine ⟨hsort, List.sorted_singleton _, fun a ha b hb => ?_⟩
    simp only [List.mem_singleton] at hb
    subst hb
    exact hbound' a ha

/-- C1 witness: the shape facts at a concrete one-line document with one
part. -/
theorem splitPositions_shape_witness :
    2 ≤ (splitPositions ["ab"] 1).length
    ∧ (splitPositions ["ab"] 1).length ≤ 1 + 1
    ∧ (splitPositions ["ab"] 1).head? = some 0
    ∧ (splitPositions ["ab"] 1).getLast? = some (["ab"] : List String).length
    ∧ List.Sorted (· ≤ ·) (splitPositions ["ab"] 1) :=
  splitPositions_shape ["ab"] 1 (by decide)

/-- C1 counterexample: a one-line document of 8000 non-whitespace characters
has part count 3, yet the computation returns only the 3 indices
`[0, 1, 1]`, not `n + 1 = 4` of them: a single line can record at most one
interior split point, and the closing `append(len(lines))` runs only once. -/
theorem splitPositions_count_cex :
    computeParts (countChars (String.mk (List.replicate 8000 'a'))) = 3
    ∧ splitPositions bigLineDoc 3 = [0, 1, 1]
    ∧ ¬((splitPositions bigLineDoc 3).length = 3 + 1) := by
  have h8 : countChars (String.mk (List.replicate 8000 'a')) = 8000 := countChars_replicate 8000
  have hmap : bigLineDoc.map countChars = [8000] := by
    unfold bigLineDoc
    rw [List.map_cons, List.map_nil, h8]
  have hsp : splitPositions bigLineDoc 3 = [0, 1, 1] := by
    rw [splitPositions_eq_append bigLineDoc 3 (by decide), hmap]
    rw [show bigLineDoc.length = 1 from rfl]
    decide
  refine ⟨by rw [h8]; decide, hsp, by rw [hsp]; decide⟩

/-! ## Claim C6: when the scan records a split point -/

/-- C6: the scan records the index right after the current line exactly when,
after adding the line's count, the running total has reached
`(recorded split points) * 4000` and fewer than `parts` points are recorded;
on the 10-line document whose first three lines count 1400, 1400 and 1300
(4100 over three lines) with `n = 2`, the first recorded split point is
index 3. -/
theorem splitScan_records_iff :
    (∀ (parts c : Nat) (cs : List Nat) (i cur : Nat) (acc : List Nat),
        acc.length * 4000 ≤ cur + c → acc.length < parts →
        splitScan parts (c :: cs) i cur acc
          = splitScan parts cs (i + 1) (cur + c) (acc ++ [i + 1]))
    ∧ (∀ (parts c : Nat) (cs : List Nat) (i cur : Nat) (acc : List Nat),
        ¬(acc.length * 4000 ≤ cur + c ∧ acc.length < parts) →
        splitScan parts (c :: cs) i cur acc = splitScan parts cs (i + 1) (cur + c) acc)
    ∧ docTen.map countChars = [1400, 1400, 1300, 10, 10, 10, 10, 10, 10, 10]
    ∧ splitPositions docTen 2 = [0, 3, 10]
    ∧ (splitPositions docTen 2).get? 1 = some 3 := by
  have hmap : docTen.map countChars = [1400, 1400, 1300, 10, 10, 10, 10, 10, 10, 10] := by
    simp only [docTen, List.map_cons, List.map_replicate, countChars_replicate]
    decide
  have hsp : splitPositions docTen 2 = [0, 3, 10] := by
    rw [splitPositions_eq_append docTen 2 (by decide), hmap]
    rw [show docTen.length = 10 from by simp [docTen]]
    decide
  refine ⟨fun parts c cs i cur acc h1 h2 => ?_, fun parts c cs i cur acc h12 => ?_,
    hmap, hsp, by rw [hsp]; rfl⟩
  · simp only [splitScan]
    rw [if_pos ⟨h1, h2⟩]
  · simp only [splitScan]
    rw [if_neg h12]

/-! ## The part-extraction loop and the concatenation property -/

/-- The loop `writeParts` reads only the suffix of the position list from the current
index on. -/
theorem writeParts_eq_wpList (lines : List String) (sp : List Nat) :
    ∀ (r i : Nat), writeParts lines sp r i = wpList lines (sp.drop i) r := by
  intro r
  induction r with
  | zero =>
    intro i
    cases sp.drop i <;> rfl
  | succ n ih =>
    intro i
    have hh : (sp.drop i).head? = sp.get? i := by
      rw [List.head?_drop, List.get?_eq_getElem?]
    cases hd : sp.drop i with
    | nil =>
      have h0 : sp.get? i = none := by rw [← hh, hd]; rfl
      simp only [writeParts, h0, wpList]
    | cons a rest =>
      have h1 : sp.get? i = some a := by rw [← hh, hd]; rfl
      have h2 : sp.drop (i + 1) = rest := by
        have h3 : sp.drop (i + 1) = (sp.drop i).drop 1 := by rw [List.drop_drop]
        rw [h3, hd]
        rfl
      have h3 : sp.get? (i + 1) = rest.head? := by
        rw [List.get?_eq_getElem?, ← List.head?_drop, h2]
      simp only [writeParts, wpList, h1, h3, ih (i + 1), h2]

/-- The loop succeeds only when it can read a start index for every part. -/
theorem wpList_some_le (lines : List String) :
    ∀ (r : Nat) (u : List Nat) (ps : List (List String)),
      wpList lines u r = some ps → r ≤ u.length := by
  intro r
  induction r with
  | zero => intro u ps _; exact Nat.zero_le _
  | succ n ih =>
    intro u ps h
    cases u with
    | nil => exact absurd h (by simp [wpList])
    | cons a rest =>
      simp only [wpList] at h
      cases hr : wpList lines rest n with
      | none => rw [hr] at h; exact absurd h (by simp)
      | some qs =>
        have := ih rest qs hr
        simp only [List.length_cons]
        omega

/-- A successful loop produces exactly one slice per part. -/
theorem wpList_length (lines : List String) :
    ∀ (r : Nat) (u : List Nat) (ps : List (List String)),
      wpList lines u r = some ps → ps.length = r := by
  intro r
  induction r with
  | zero =>
    intro u ps h
    cases u with
    | nil => cases h; rfl
    | cons a rest => cases h; rfl
  | succ n ih =>
    intro u ps h
    cases u with
    | nil => exact absurd h (by simp [wpList])
    | cons a rest =>
      simp only [wpList] at h
      cases hr : wpList lines rest n with
      | none => rw [hr] at h; exact absurd h (by simp)
      | some qs =>
        rw [hr] at h
        have hq := ih rest qs hr
        cases h
        simp [hq]

/-- With one more position than parts remaining, every part ends at the next
recorded position: the loop returns the consecutive slices. -/
theorem wpList_pairs (lines : List String) :
    ∀ (s : List Nat) (a : Nat),
      wpList lines (a :: s) s.length = some (slicesAlong lines (a :: s)) := by
  intro s
  induction s with
  | nil => intro a; rfl
  | cons b s' ih =>
    intro a
    simp only [List.length_cons, wpList, List.head?_cons, ih b, slicesAlong]

/-- With exactly as many positions as parts remaining, the final part ends at
the line count: the loop returns the slices along the positions closed by
`lines.length`. -/
theorem wpList_closing (lines : List String) :
    ∀ (s : List Nat) (a : Nat),
      wpList lines (a :: s) (s.length + 1)
        = some (slicesAlong lines ((a :: s) ++ [lines.length])) := by
  intro s
  induction s with
  | nil => intro a; rfl
  | cons b s' ih =>
    intro a
    have h1 : wpList lines (a :: b :: s') (s'.length + 1 + 1)
        = match wpList lines (b :: s') (s'.length + 1) with
          | none => none
          | some ps => some (sliceList lines a b :: ps) := rfl
    rw [List.length_cons, h1, ih b]
    simp only [List.cons_append, slicesAlong, List.append_eq]

/-- Two adjacent slices glue back into one. -/
theorem sliceList_glue (l : List α) (a b c : Nat) (hab : a ≤ b) (hbc : b ≤ c)
    (hbl : b ≤ l.length) :
    sliceList l a b ++ sliceList l b c = sliceList l a c := by
  unfold sliceList
  have h1 : List.take b (List.take c l) = List.take b l := by
    rw [List.take_take, Nat.min_eq_left hbc]
  have h2 : List.take c l = List.take b l ++ (List.take c l).drop b := by
    conv_lhs => rw [← List.take_append_drop b (List.take c l)]
    rw [h1]
  have h0 : a - (List.take b l).length = 0 := by
    rw [List.length_take]
    omega
  calc (List.take b l).drop a ++ (List.take c l).drop b
      = (List.take b l).drop a ++ ((List.take c l).drop b).drop (a - (List.take b l).length) := by
        rw [h0, List.drop_zero]
    _ = (List.take b l ++ (List.take c l).drop b).drop a :=
        List.drop_append_eq_append_drop.symm
    _ = (List.take c l).drop a := by rw [← h2]

/-- Flattening the consecutive slices along a sorted, in-range position list
gives the slice from its first to its last position. -/
theorem slicesAlong_flatten (lines : List String) :
    ∀ (s : List Nat) (a : Nat), List.Sorted (· ≤ ·) (a :: s) →
      (∀ x ∈ a :: s, x ≤ lines.length) →
      (slicesAlong lines (a :: s)).flatten
        = sliceList lines a ((a :: s).getLast (List.cons_ne_nil a s)) := by
  intro s
  induction s with
  | nil =>
    intro a _ _
    have h : sliceList lines a a = [] :=
      List.drop_eq_nil_of_le (by rw [List.length_take]; omega)
    simp [slicesAlong, h]
  | cons b s' ih =>
    intro a hsort hle
    have hab : a ≤ b := (List.pairwise_cons.1 hsort).1 b (by simp)
    have hsort' : List.Sorted (· ≤ ·) (b :: s') := (List.pairwise_cons.1 hsort).2
    have hle' : ∀ x ∈ b :: s', x ≤ lines.length := fun x hx => hle x (by simp [hx])
    have hbl : b ≤ lines.length := hle' b (by simp)
    have hbr : b ≤ (b :: s').getLast (List.cons_ne_nil b s') := by
      have hmem := List.getLast_mem (List.cons_ne_nil b s')
      rcases List.mem_cons.1 hmem with h | h
      · rw [h]
      · exact (List.pairwise_cons.1 hsort').1 _ h
    have hglast : (a :: b :: s').getLast (List.cons_ne_nil a (b :: s'))
        = (b :: s').getLast (List.cons_ne_nil b s') :=
      List.getLast_cons (List.cons_ne_nil b s')
    show (sliceList lines a b :: slicesAlong lines (b :: s')).flatten = _
    rw [List.flatten_cons, ih b hsort' hle', hglast]
    exact sliceList_glue lines a b _ hab hbr hbl

/-! ## Claim C2: concatenating the parts reproduces the document -/

/-- C2: for every document and every split run that completes without error
and is counted a success (a non-empty `created_files`), concatenating the
produced parts' line sequences in order yields exactly the original
document's line sequence: no line duplicated, dropped or reordered. -/
theorem splitFile_concat (lines : List String) (wc : Nat) (ps : List (List String))
    (hs : splitFile lines wc = some ps) (hne : ps ≠ []) :
    ps.flatten = lines := by
  unfold splitFile at hs
  rw [writeParts_eq_wpList, List.drop_zero] at hs
  have hlen : ps.length = computeParts wc := wpList_length lines _ _ _ hs
  have hpos : 1 ≤ computeParts wc := by
    rw [← hlen]
    cases ps with
    | nil => exact absurd rfl hne
    | cons p ps' => simp
  obtain ⟨t, ht⟩ := splitScan_extends (computeParts wc) (lines.map countChars) 0 0 [0]
  have heq := splitPositions_eq_append lines (computeParts wc) hpos
  have hlb := splitScan_length_le (computeParts wc) (lines.map countChars) 0 0 [0]
  simp only [List.length_singleton] at hlb
  rw [Nat.max_eq_right hpos] at hlb
  obtain ⟨hsort0, hbound0⟩ := splitScan_sorted_le (computeParts wc) (lines.map countChars)
    0 0 [0] (by simp) (List.sorted_singleton 0)
  rw [ht] at heq hsort0 hbound0 hlb
  rw [heq] at hs
  have hsimp : (([0] ++ t) ++ [lines.length] : List Nat) = 0 :: (t ++ [lines.length]) := by
    simp
  rw [hsimp] at hs
  have hboundL : ∀ x ∈ (0 : Nat) :: (t ++ [lines.length]), x ≤ lines.length := by
    intro x hx
    rcases List.mem_cons.1 hx with h | h
    · omega
    · rcases List.mem_append.1 h with h2 | h2
      · have h3 : x ∈ ([0] ++ t : List Nat) := by simp [h2]
        have := hbound0 x h3
        simpa using this
      · simp only [List.mem_singleton] at h2
        omega
  have hsortL : List.Sorted (· ≤ ·) ((0 : Nat) :: (t ++ [lines.length])) := by
    rw [← hsimp, List.Sorted, List.pairwise_append]
    refine ⟨hsort0, List.sorted_singleton _, fun a ha b hb => ?_⟩
    simp only [List.mem_singleton] at hb
    subst hb
    have := hbound0 a ha
    simpa using this
  have hslen : (t ++ [lines.length]).length = t.length + 1 := by simp
  have htlen : t.length + 1 ≤ computeParts wc := by
    have h4 : (([0] ++ t) : List Nat).length ≤ computeParts wc := hlb
    simpa using h4
  have hple : computeParts wc ≤ (t ++ [lines.length]).length + 1 := by
    have h5 := wpList_some_le lines _ _ _ hs
    simpa using h5
  have hcases : computeParts wc = (t ++ [lines.length]).length
      ∨ computeParts wc = (t ++ [lines.length]).length + 1 := by
    rw [hslen] at hple ⊢
    omega
  have hslice : sliceList lines 0 lines.length = lines := by
    simp [sliceList]
  rcases hcases with hcase | hcase
  · rw [hcase, wpList_pairs] at hs
    have hps : ps = slicesAlong lines (0 :: (t ++ [lines.length])) := (Option.some.inj hs).symm
    rw [hps, slicesAlong_flatten lines _ 0 hsortL hboundL]
    have hgl : ((0 : Nat) :: (t ++ [lines.length])).getLast (List.cons_ne_nil _ _)
        = lines.length := by
      have h1 : ((0 : Nat) :: (t ++ [lines.length])).getLast? = some lines.length := by
        rw [← hsimp]
        exact List.getLast?_concat _
      have h2 := List.getLast?_eq_getLast ((0 : Nat) :: (t ++ [lines.length]))
        (List.cons_ne_nil _ _)
      rw [h2] at h1
      exact Option.some.inj h1
    rw [hgl, hslice]
  · rw [hcase, wpList_closing] at hs
    have hconsapp : ((0 : Nat) :: (t ++ [lines.length])) ++ [lines.length]
        = 0 :: ((t ++ [lines.length]) ++ [lines.length]) := by simp
    have hps : ps = slicesAlong lines (0 :: ((t ++ [lines.length]) ++ [lines.length])) := by
      rw [← hconsapp]
      exact (Option.some.inj hs).symm
    have hsort2 : List.Sorted (· ≤ ·)
        ((0 : Nat) :: ((t ++ [lines.length]) ++ [lines.length])) := by
      rw [← hconsapp, List.Sorted, List.pairwise_append]
      refine ⟨hsortL, List.sorted_singleton _, fun a ha b hb => ?_⟩
      simp only [List.mem_singleton] at hb
      subst hb
      exact hboundL a ha
    have hbound2 : ∀ x ∈ (0 : Nat) :: ((t ++ [lines.length]) ++ [lines.length]),
        x ≤ lines.length := by
      intro x hx
      rw [← hconsapp] at hx
      rcases List.mem_append.1 hx with h | h
      · exact hboundL x h
      · simp only [List.mem_singleton] at h
        omega
    rw [hps, slicesAlong_flatten lines _ 0 hsort2 hbound2]
    have hgl : ((0 : Nat) :: ((t ++ [lines.length]) ++ [lines.length])).getLast
        (List.cons_ne_nil _ _) = lines.length := by
      have h1 : ((0 : Nat) :: ((t ++ [lines.length]) ++ [lines.length])).getLast?
          = some lines.length := by
        rw [← hconsapp]
        exact List.getLast?_concat _
      have h2 := List.getLast?_eq_getLast
        ((0 : Nat) :: ((t ++ [lines.length]) ++ [lines.length])) (List.cons_ne_nil _ _)
      rw [h2] at h1
      exact Option.some.inj h1
    rw [hgl, hslice]

/-- C2 witness: a concrete successful split run whose parts flatten back to
the original two-line document. -/
theorem splitFile_concat_witness :
    ([["ab", "cd"], []] : List (List String)).flatten = ["ab", "cd"] :=
  splitFile_concat ["ab", "cd"] 5000 [["ab", "cd"], []] (by decide) (by decide)

/-! ## Claim C3: the original is deleted only after all writes succeed -/

/-- If a run deleted the original, every one of the `r` remaining writes
succeeded. -/
theorem runLoop_deleted_writes (lines : List String) (sp : List Nat) (writeOk : Nat → Bool) :
    ∀ (r i : Nat) (acc : List (List String)),
      (runLoop lines sp writeOk r i acc).deleted = true →
      ∀ j, j < r → writeOk (i + j) = true := by
  intro r
  induction r with
  | zero =>
    intro i acc _ j hj
    omega
  | succ n ih =>
    intro i acc hdel j hj
    cases hg : sp.get? i with
    | none =>
      rw [show runLoop lines sp writeOk (n + 1) i acc = ⟨acc, false, []⟩ from by
        simp only [runLoop, hg]] at hdel
      cases hdel
    | some s =>
      cases hw : writeOk i with
      | false =>
        rw [show runLoop lines sp writeOk (n + 1) i acc = ⟨acc, false, []⟩ from by
          simp only [runLoop, hg, hw, Bool.false_eq_true, if_false]] at hdel
        cases hdel
      | true =>
        simp only [runLoop, hg, hw, if_true] at hdel
        cases j with
        | zero => rw [Nat.add_zero]; exact hw
        | succ k =>
          have hk := ih (i + 1) _ hdel k (by omega)
          rw [show i + (k + 1) = i + 1 + k from by omega]
          exact hk

/-- If any of the `r` remaining writes is destined to fail, the run keeps the
original file and returns the failure value `[]`. -/
theorem runLoop_fail (lines : List String) (sp : List Nat) (writeOk : Nat → Bool) :
    ∀ (r i : Nat) (acc : List (List String)),
      (∃ j, j < r ∧ writeOk (i + j) = false) →
      (runLoop lines sp writeOk r i acc).deleted = false
      ∧ (runLoop lines sp writeOk r i acc).ret = [] := by
  intro r
  induction r with
  | zero =>
    intro i acc h
    obtain ⟨j, hj, _⟩ := h
    omega
  | succ n ih =>
    intro i acc h
    obtain ⟨j, hj, hf⟩ := h
    cases hg : sp.get? i with
    | none =>
      rw [show runLoop lines sp writeOk (n + 1) i acc = ⟨acc, false, []⟩ from by
        simp only [runLoop, hg]]
      exact ⟨rfl, rfl⟩
    | some s =>
      cases hw : writeOk i with
      | false =>
        rw [show runLoop lines sp writeOk (n + 1) i acc = ⟨acc, false, []⟩ from by
          simp only [runLoop, hg, hw, Bool.false_eq_true, if_false]]
        exact ⟨rfl, rfl⟩
      | true =>
        have hj0 : j ≠ 0 := by
          intro h0
          subst h0
          rw [Nat.add_zero, hw] at hf
          cases hf
        obtain ⟨k, rfl⟩ : ∃ k, j = k + 1 := ⟨j - 1, by omega⟩
        simp only [runLoop, hg, hw, if_true]
        exact ih (i + 1) _ ⟨k, by omega, by
          rw [show i + 1 + k = i + (k + 1) from by omega]; exact hf⟩

/-- C3: the original file is deleted only when every part write succeeded;
when writing any of the `parts` parts fails, the original remains and the run
is reported as a failure (`created_files = []`); concretely, on the 9000
character three-line document split into three parts, failing the third write
keeps the original and reports failure, while all writes succeeding deletes
it after writing the three slices. -/
theorem runSplit_delete_gated :
    (∀ (lines : List String) (wc : Nat) (writeOk : Nat → Bool),
        (runSplit lines wc writeOk).deleted = true →
        ∀ i, i < computeParts wc → writeOk i = true)
    ∧ (∀ (lines : List String) (wc : Nat) (writeOk : Nat → Bool),
        (∃ i, i < computeParts wc ∧ writeOk i = false) →
        (runSplit lines wc writeOk).deleted = false
        ∧ (runSplit lines wc writeOk).ret = [])
    ∧ splitPositions threeKDoc 3 = [0, 2, 3, 3]
    ∧ (runSplit threeKDoc 9000 (fun i => decide (i ≠ 2))).deleted = false
    ∧ (runSplit threeKDoc 9000 (fun i => decide (i ≠ 2))).ret = []
    ∧ (runSplit threeKDoc 9000 (fun _ => true)).deleted = true
    ∧ (runSplit threeKDoc 9000 (fun _ => true)).written
        = [sliceList threeKDoc 0 2, sliceList threeKDoc 2 3, sliceList threeKDoc 3 3] := by
  have hmap : threeKDoc.map countChars = [3000, 3000, 3000] := by
    simp only [threeKDoc, List.map_cons, List.map_nil, countChars_replicate]
  have hsp : splitPositions threeKDoc 3 = [0, 2, 3, 3] := by
    rw [splitPositions_eq_append threeKDoc 3 (by decide), hmap]
    rw [show threeKDoc.length = 3 from rfl]
    decide
  have hcp : computeParts 9000 = 3 := by decide
  have hrun1 : runSplit threeKDoc 9000 (fun i => decide (i ≠ 2))
      = runLoop threeKDoc [0, 2, 3, 3] (fun i => decide (i ≠ 2)) 3 0 [] := by
    unfold runSplit
    rw [hcp, hsp]
  have hrun2 : runSplit threeKDoc 9000 (fun _ => true)
      = runLoop threeKDoc [0, 2, 3, 3] (fun _ => true) 3 0 [] := by
    unfold runSplit
    rw [hcp, hsp]
  refine ⟨fun lines wc writeOk hdel i hi => ?_, fun lines wc writeOk h => ?_,
    hsp, by rw [hrun1]; rfl, by rw [hrun1]; rfl, by rw [hrun2]; rfl, by rw [hrun2]; rfl⟩
  · have := runLoop_deleted_writes lines (splitPositions lines (computeParts wc)) writeOk
      (computeParts wc) 0 [] hdel i hi
    simpa using this
  · obtain ⟨i, hi, hf⟩ := h
    exact runLoop_fail lines (splitPositions lines (computeParts wc)) writeOk
      (computeParts wc) 0 [] ⟨i, hi, by simpa using hf⟩

/-! ## Claim C8: per-file error isolation in the batch -/

/-- The success/error fold started from any totals equals the fold from
`(0, 0)` shifted by those totals. -/
theorem foldl_batchStep_shift :
    ∀ (jobs : List BatchJob) (p : Nat × Nat),
      jobs.foldl batchStep p
        = (p.1 + (jobs.foldl batchStep (0, 0)).1, p.2 + (jobs.foldl batchStep (0, 0)).2) := by
  intro jobs
  induction jobs with
  | nil => intro p; simp
  | cons j rest ih =>
    intro p
    rw [List.foldl_cons, List.foldl_cons]
    cases hj : ((runSplit j.1.1 j.1.2 j.2).ret).isEmpty with
    | false =>
      rw [show batchStep p j = (p.1 + 1, p.2) from by simp [batchStep, hj],
          show batchStep (0, 0) j = (1, 0) from by simp [batchStep, hj],
          ih (p.1 + 1, p.2), ih (1, 0)]
      simp
      try omega
    | true =>
      rw [show batchStep p j = (p.1, p.2 + 1) from by simp [batchStep, hj],
          show batchStep (0, 0) j = (0, 1) from by simp [batchStep, hj],
          ih (p.1, p.2 + 1), ih (0, 1)]
      simp
      try omega

/-- C8: each selected file of a batch is processed independently: the
success/error totals split across a concatenation of batches, a file whose
run returns the failure value `[]` counts as exactly one failed item, every
file is counted exactly once (no error aborts the remaining batch), and
concretely a failing file between two succeeding ones yields 2 successes and
1 error. -/
theorem batchCounts_isolation :
    (∀ xs ys : List BatchJob,
        batchCounts (xs ++ ys)
          = ((batchCounts xs).1 + (batchCounts ys).1,
             (batchCounts xs).2 + (batchCounts ys).2))
    ∧ (∀ job : BatchJob,
        (runSplit job.1.1 job.1.2 job.2).ret = [] → batchCounts [job] = (0, 1))
    ∧ (∀ jobs : List BatchJob, (batchCounts jobs).1 + (batchCounts jobs).2 = jobs.length)
    ∧ batchCounts [((["a"], 1), fun _ => true), ((["a"], 1), fun _ => false),
        ((["a"], 1), fun _ => true)] = (2, 1) := by
  refine ⟨fun xs ys => ?_, fun job hj => ?_, fun jobs => ?_, by decide⟩
  · unfold batchCounts
    rw [List.foldl_append, foldl_batchStep_shift ys (xs.foldl batchStep (0, 0))]
  · simp [batchCounts, batchStep, hj]
  · induction jobs with
    | nil => rfl
    | cons j rest ih =>
      have hb : (batchStep (0, 0) j).1 + (batchStep (0, 0) j).2 = 1 := by
        unfold batchStep
        split <;> rfl
      unfold batchCounts at ih ⊢
      rw [List.foldl_cons, foldl_batchStep_shift rest (batchStep (0, 0) j)]
      simp only [List.length_cons]
      omega

end AudiobookMaker
